import Mathlib

/-!
Shallow embedding of the synthetic market-data generation and aggregation
layer of the financial-dashboard repository (modules `news_data.py`,
`sentiment_analyzer.py`, `stock_prediction.py`).

Conventions of the embedding:
* Python floats are modelled as rationals (`ℚ`).
* The process-wide pseudo-random source is modelled as an explicit stream
  `rng : ℕ → ℚ` of draws; call site `k` reads `rng k`.  `random.uniform(a,b)`
  maps the draw `t` to `a + t * (b - a)`; `random.randint(a,b)` and
  `random.choice(l)` turn the draw into a clamped index, so that (for `t`
  in `[0,1]` and nonempty ranges) the result always lies in the requested
  range.  All theorems are quantified over arbitrary streams, so they hold
  for every realisation of the random source.
* `math.exp`, `math.sin` and `math.pi` are never inspected by the generation logic;
  they are passed in as parameters (`mexp`, `msin`, `mpi`), so every theorem
  holds for the true transcendental functions in particular.
* Python code that raises (`ZeroDivisionError`, `IndexError`, `KeyError`)
  is modelled with `Option`: `none` means the call raises.
* Python's `list.sort`/`sorted` is a stable sort; it is modelled by
  `List.insertionSort`, which is stable (the output of any stable sort for
  a total transitive relation is unique, so this is faithful).
-/

namespace MarketData

/-- Model of `random.uniform(a, b)`: the raw draw `t ∈ [0,1]` is mapped
affinely onto `[a, b]`. -/
def uniform (a b t : ℚ) : ℚ := a + t * (b - a)

/-- Model of `random.randint(a, b)` (inclusive bounds): the draw is turned
into an offset clamped into `[0, b - a]`, so the result is always in
`[a, b]` when `a ≤ b`. -/
def randint (a b : ℤ) (t : ℚ) : ℤ :=
  a + min (max 0 ⌊t * ((b : ℚ) + 1 - a)⌋) (b - a)

/-- Model of `random.choice(l)`: the draw is turned into an index clamped
into `[0, l.length - 1]`; `d` is a default that is never reached for the
nonempty literal lists used by the code. -/
def choice {α : Type*} (l : List α) (d : α) (t : ℚ) : α :=
  l.getD (min (⌊t * l.length⌋.toNat) (l.length - 1)) d

/-- Python `round` to an integer: round half to even (banker's rounding). -/
def roundTE (x : ℚ) : ℤ :=
  let f := ⌊x⌋
  let r := x - f
  if r < 1 / 2 then f
  else if 1 / 2 < r then f + 1
  else if f % 2 = 0 then f else f + 1

/-- Python `round(x, 2)`: round to the nearest multiple of `1/100`,
ties to even. -/
def pyRound2 (x : ℚ) : ℚ := (roundTE (x * 100) : ℚ) / 100

theorem floor_le_roundTE (x : ℚ) : ⌊x⌋ ≤ roundTE x := by
  unfold roundTE
  dsimp only
  split
  · exact le_refl _
  · split
    · exact le_of_lt (lt_add_one _)
    · split
      · exact le_refl _
      · exact le_of_lt (lt_add_one _)

theorem one_le_pyRound2 {x : ℚ} (hx : 1 ≤ x) : 1 ≤ pyRound2 x := by
  unfold pyRound2
  rw [le_div_iff₀ (by norm_num : (0 : ℚ) < 100), one_mul]
  have h1 : (100 : ℤ) ≤ ⌊x * 100⌋ := by
    have : (100 : ℚ) ≤ x * 100 := by linarith
    exact_mod_cast Int.le_floor.mpr (by exact_mod_cast this)
  have h2 : (100 : ℤ) ≤ roundTE (x * 100) := le_trans h1 (floor_le_roundTE _)
  exact_mod_cast h2

/-! ## Index series generator (`news_data._generate_index_series`) -/

/-- One point of an index series: `{"step": step, "value": value}`. -/
structure IndexPoint where
  step : ℕ
  value : ℚ
deriving DecidableEq, Repr

/-- Python sorts the index points ascending by their `step` key. -/
def stepLE (a b : IndexPoint) : Prop := a.step ≤ b.step

instance : DecidableRel stepLE := fun a b => inferInstanceAs (Decidable (a.step ≤ b.step))

instance : IsTotal IndexPoint stepLE := ⟨fun a b => Nat.le_total a.step b.step⟩

instance : IsTrans IndexPoint stepLE := ⟨fun _ _ _ => Nat.le_trans⟩

/-- The backward walk of `_generate_index_series`: for each `step` in the
given list, update `current = max(500, current + uniform(-100, 120))` and
record `{"step": step, "value": round(current, 2)}` (the running value stays
unrounded). `k` is the index of the next random draw. -/
def indexWalk (rng : ℕ → ℚ) : ℕ → ℚ → List ℕ → List IndexPoint
  | _, _, [] => []
  | k, current, step :: rest =>
    let c := max 500 (current + uniform (-100) 120 (rng k))
    ⟨step, pyRound2 c⟩ :: indexWalk rng (k + 1) c rest

/-- The correction step `series[-1]["value"] = v`: overwrite the value of
the last element;
Python raises `IndexError` on an empty list, modelled by `none`. -/
def setLast (v : ℚ) : List IndexPoint → Option (List IndexPoint)
  | [] => none
  | [p] => some [⟨p.step, v⟩]
  | p :: q :: rest => (setLast v (q :: rest)).map (p :: ·)

/-- Embedding of `news_data._generate_index_series(latest, points)`: walk
backward from
`latest` over `reversed(range(points))`, sort ascending by step, then force
the final value to `round(latest, 2)`. -/
def _generate_index_series (rng : ℕ → ℚ) (latest : ℚ) (points : ℕ := 18) :
    Option (List IndexPoint) :=
  let series := indexWalk rng 0 latest (List.range points).reverse
  let sorted := series.insertionSort stepLE
  setLast (pyRound2 latest) sorted

theorem indexWalk_map_step (rng : ℕ → ℚ) :
    ∀ (steps : List ℕ) (k : ℕ) (current : ℚ),
      (indexWalk rng k current steps).map IndexPoint.step = steps := by
  intro steps
  induction steps with
  | nil => intro k current; rfl
  | cons s rest ih =>
    intro k current
    simp only [indexWalk, List.map_cons, ih]

theorem setLast_spec (v : ℚ) :
    ∀ l : List IndexPoint, l ≠ [] →
      ∃ l', setLast v l = some l' ∧
        l'.map IndexPoint.step = l.map IndexPoint.step ∧
        ∃ p, l'.getLast? = some p ∧ p.value = v := by
  intro l
  induction l with
  | nil => intro h; exact absurd rfl h
  | cons p rest ih =>
    intro _
    cases rest with
    | nil =>
      exact ⟨[⟨p.step, v⟩], rfl, rfl, ⟨p.step, v⟩, rfl, rfl⟩
    | cons q rest' =>
      obtain ⟨l'', h1, h2, pt, h3, h4⟩ := ih (by simp)
      refine ⟨p :: l'', ?_, ?_, pt, ?_, h4⟩
      · simp [setLast, h1]
      · rw [List.map_cons, List.map_cons, h2]
      · rw [List.getLast?_cons, h3]
        rfl

/-- The sorted index series has step map exactly `range points`. -/
theorem sorted_index_steps (rng : ℕ → ℚ) (latest : ℚ) (points : ℕ) :
    ((indexWalk rng 0 latest (List.range points).reverse).insertionSort
        stepLE).map IndexPoint.step = List.range points := by
  set s := indexWalk rng 0 latest (List.range points).reverse with hs
  have hmap : s.map IndexPoint.step = (List.range points).reverse := by
    rw [hs]; exact indexWalk_map_step rng _ 0 latest
  have hperm : List.Perm ((s.insertionSort stepLE).map IndexPoint.step)
      (List.range points) := by
    have h1 := (List.perm_insertionSort stepLE s).map IndexPoint.step
    rw [hmap] at h1
    exact h1.trans (List.reverse_perm _)
  have hsorted : List.Sorted (· ≤ ·) ((s.insertionSort stepLE).map IndexPoint.step) := by
    have h := List.sorted_insertionSort stepLE s
    exact List.pairwise_map.mpr h
  have hrange : List.Sorted (· ≤ ·) (List.range points) :=
    List.pairwise_le_range points
  exact List.eq_of_perm_of_sorted hperm hsorted hrange

/-- Shared workhorse for the index-series claims: for `points ≥ 1` the
generator succeeds and returns a list whose step map is `range points` and
whose last point's value is `round(latest, 2)`. -/
theorem generate_index_series_spec (rng : ℕ → ℚ) (latest : ℚ) (points : ℕ)
    (h : 1 ≤ points) :
    ∃ l, _generate_index_series rng latest points = some l ∧
      l.length = points ∧ l.map IndexPoint.step = List.range points ∧
      ∃ p, l.getLast? = some p ∧ p.value = pyRound2 latest := by
  unfold _generate_index_series
  have hsteps := sorted_index_steps rng latest points
  set sorted :=
    (indexWalk rng 0 latest (List.range points).reverse).insertionSort stepLE with hdef
  have hne : sorted ≠ [] := by
    intro h0
    rw [h0] at hsteps
    simp only [List.map_nil] at hsteps
    have : points = 0 := by
      have := congrArg List.length hsteps
      simpa using this.symm
    omega
  obtain ⟨l', h1, h2, pt, h3, h4⟩ := setLast_spec (pyRound2 latest) sorted hne
  refine ⟨l', h1, ?_, ?_, pt, h3, h4⟩
  · have := congrArg List.length (h2.trans hsteps)
    simpa using this
  · exact h2.trans hsteps

/-- C1 (counterexample): at `latest = 617/500` (= 1.234) and `points = 1`,
the generated series ends with value `round(1.234, 2) = 1.23`, which is not
equal to the `latest` argument — the code stores `round(latest, 2)`, not
`latest` itself. -/
theorem claim1_counterexample :
    _generate_index_series (fun _ => 0) (617 / 500) 1 =
      some [⟨0, 123 / 100⟩] ∧ (123 / 100 : ℚ) ≠ 617 / 500 := by
  constructor
  · simp only [_generate_index_series, indexWalk, setLast, List.insertionSort,
      List.orderedInsert, List.range_succ, List.range_zero, List.nil_append,
      List.reverse_cons, List.reverse_nil]
    norm_num [pyRound2, roundTE]
  · norm_num

/-- C1 (amended): for every rng stream, every `latest` and every point count
≥ 1, the series returned by `_generate_index_series` ends with a point whose
value is exactly `round(latest, 2)` — the input anchor rounded to two decimal
places — regardless of the random steps of the backward walk. -/
theorem claim1_last_value_is_rounded_anchor (rng : ℕ → ℚ) (latest : ℚ)
    (points : ℕ) (h : 1 ≤ points) :
    ∃ l, _generate_index_series rng latest points = some l ∧
      ∃ p, l.getLast? = some p ∧ p.value = pyRound2 latest := by
  obtain ⟨l, h1, _, _, p, h3, h4⟩ := generate_index_series_spec rng latest points h
  exact ⟨l, h1, p, h3, h4⟩

/-- C1 (witness): the amended claim instantiated at `latest = 7`,
`points = 2`, and the constant-zero rng stream. -/
theorem claim1_witness :
    1 ≤ 2 ∧ ∃ l, _generate_index_series (fun _ => 0) 7 2 = some l ∧
      ∃ p, l.getLast? = some p ∧ p.value = pyRound2 7 :=
  ⟨by decide, claim1_last_value_is_rounded_anchor (fun _ => 0) 7 2 (by decide)⟩

/-- C9 (counterexample): at `points = 0` the function does not return a
(length-0) sequence: `series[-1]` raises `IndexError` on the empty list,
modelled by `none`. -/
theorem claim9_counterexample :
    _generate_index_series (fun _ => 0) 1000 0 = none := by
  rfl

/-- C9 (amended): for every point count ≥ 1 (rather than ≥ 0), the sequence
returned by `_generate_index_series` has length exactly `points` and its step
indices are `0, 1, ..., points - 1` in ascending order.  At `points = 0` the
function raises instead of returning. -/
theorem claim9_length_and_ascending_steps (rng : ℕ → ℚ) (latest : ℚ)
    (points : ℕ) (h : 1 ≤ points) :
    ∃ l, _generate_index_series rng latest points = some l ∧
      l.length = points ∧ l.map IndexPoint.step = List.range points := by
  obtain ⟨l, h1, h2, h3, _⟩ := generate_index_series_spec rng latest points h
  exact ⟨l, h1, h2, h3⟩

/-- C9 (witness): the amended claim instantiated at `latest = 1000`,
`points = 3`, and the constant-zero rng stream. -/
theorem claim9_witness :
    1 ≤ 3 ∧ ∃ l, _generate_index_series (fun _ => 0) 1000 3 = some l ∧
      l.length = 3 ∧ l.map IndexPoint.step = List.range 3 :=
  ⟨by decide, claim9_length_and_ascending_steps (fun _ => 0) 1000 3 (by decide)⟩

/-! ## Intraday price series generator (`news_data.company_price_series`) -/

/-- One record of the intraday series:
`{"time": ..., "price": ..., "volume": ..., "prev_close": ...}`.
`time` is minutes after the fixed 13:30 UTC session start. -/
structure PricePoint where
  time : ℚ
  price : ℚ
  volume : ℤ
  prev_close : ℚ
deriving DecidableEq, Repr

/-- The per-series constants of `company_price_series`, computed once before
the loop, together with the abstract models of `math.exp`, `math.sin`,
`math.pi` and the random stream. -/
structure PriceCtx where
  mexp : ℚ → ℚ
  msin : ℚ → ℚ
  mpi : ℚ
  rng : ℕ → ℚ
  interval : ℕ
  points : ℕ
  prev_close : ℚ
  base_trend : ℚ
  morning_burst : ℚ
  shock_center : ℚ
  shock_magnitude : ℚ

/-- The `base_trend` classification: the Python dict literal evaluates one
`random.uniform` draw per key (stream indices 2–7) and the `.get` default
draw (index 8) before looking up `sentiment`. -/
def biasTrend (sentiment : String) (rng : ℕ → ℚ) : ℚ :=
  if sentiment = "buy" then uniform (3/20) (7/20) (rng 2)
  else if sentiment = "bullish" then uniform (3/20) (7/20) (rng 3)
  else if sentiment = "increase" then uniform (3/20) (7/20) (rng 4)
  else if sentiment = "sell" then -uniform (3/20) (7/20) (rng 5)
  else if sentiment = "bearish" then -uniform (3/20) (7/20) (rng 6)
  else if sentiment = "decrease" then -uniform (3/20) (7/20) (rng 7)
  else uniform (-(2/25)) (2/25) (rng 8)

/-- One iteration of the loop body of `company_price_series` at step `i`:
returns the updated running price and the emitted record.  Stream indices
`12 + 3i`, `13 + 3i`, `14 + 3i` are the wave amplitude, the noise, and the
volume draw of step `i`. -/
def priceStep (c : PriceCtx) (i : ℕ) (price : ℚ) : ℚ × PricePoint :=
  let progress : ℚ := (i : ℚ) / ((c.points : ℚ) - 1)
  let morning_factor := c.morning_burst * c.mexp (-progress * 6)
  let trend_component := c.base_trend * (1 - 2/5 * progress)
  let wave := c.msin (progress * c.mpi * (3/2)) * uniform (2/5) (6/5) (c.rng (12 + 3 * i))
  let shock : ℚ :=
    if |progress - c.shock_center| < 2/25 then
      c.shock_magnitude * (1 - |progress - c.shock_center| / (2/25))
    else 0
  let noise := uniform (-(2/5)) (2/5) (c.rng (13 + 3 * i))
  let increment := morning_factor + trend_component + wave + shock + noise
  let price' := max 1 (price + increment)
  let vol0 := randint 250000 2500000 (c.rng (14 + 3 * i))
  let volume := if progress < 3/20 ∨ 17/20 < progress then ⌊(vol0 : ℚ) * (7/5)⌋ else vol0
  (price', ⟨(i : ℚ) * c.interval, pyRound2 price', volume, pyRound2 c.prev_close⟩)

/-- The loop `for i in range(points)` of `company_price_series`, threading
the running price. -/
def priceWalk (c : PriceCtx) : ℚ → List ℕ → List PricePoint
  | _, [] => []
  | price, i :: rest =>
    let r := priceStep c i price
    r.2 :: priceWalk c r.1 rest

/-- Embedding of `news_data.company_price_series(ticker, bias, interval_minutes)`.
`none` models an exception: `interval_minutes = 0` raises
`ZeroDivisionError` in `6.5*60 // interval_minutes`, and
`points = 390 // interval_minutes = 1` raises `ZeroDivisionError` in
`progress = i / (points - 1)` on the first loop iteration.  The `ticker`
argument is unused by the computation and omitted. -/
def company_price_series (mexp msin : ℚ → ℚ) (mpi : ℚ) (rng : ℕ → ℚ)
    (bias : Option String) (interval_minutes : ℕ := 5) :
    Option (List PricePoint) :=
  if interval_minutes = 0 then none
  else if 390 / interval_minutes = 1 then none
  else
    let points := 390 / interval_minutes
    let prev_close := uniform 40 320 (rng 0)
      let price := prev_close + uniform (-2) 2 (rng 1)
      let sentiment := (bias.getD "neutral").toLower
      let base_trend := biasTrend sentiment rng
      let morning_burst := uniform (4/5) (8/5) (rng 9) * (if 0 ≤ base_trend then 1 else -1)
      let shock_center := uniform (7/20) (11/20) (rng 10)
      let shock_magnitude := uniform (3/2) (16/5) (rng 11) * (if 0 ≤ base_trend then 1 else -1)
      some (priceWalk
        ⟨mexp, msin, mpi, rng, interval_minutes, points, prev_close,
          base_trend, morning_burst, shock_center, shock_magnitude⟩
        price (List.range points))

theorem priceWalk_length (c : PriceCtx) :
    ∀ (idxs : List ℕ) (price : ℚ), (priceWalk c price idxs).length = idxs.length := by
  intro idxs
  induction idxs with
  | nil => intro price; rfl
  | cons i rest ih =>
    intro price
    simp only [priceWalk, List.length_cons, ih]

theorem randint_le (a b : ℤ) (t : ℚ) (h : a ≤ b) : a ≤ randint a b t := by
  unfold randint
  have h1 : (0 : ℤ) ≤ min (max 0 ⌊t * ((b : ℚ) + 1 - a)⌋) (b - a) :=
    le_min (le_max_left 0 _) (by omega)
  omega

theorem priceStep_point (c : PriceCtx) (i : ℕ) (price : ℚ) :
    1 ≤ (priceStep c i price).2.price ∧ 0 ≤ (priceStep c i price).2.volume := by
  unfold priceStep
  dsimp only
  constructor
  · exact one_le_pyRound2 (le_max_left 1 _)
  · have hv : (0 : ℤ) ≤ randint 250000 2500000 (c.rng (14 + 3 * i)) :=
      le_trans (by norm_num) (randint_le 250000 2500000 _ (by norm_num))
    split
    · refine Int.floor_nonneg.mpr ?_
      have : (0 : ℚ) ≤ (randint 250000 2500000 (c.rng (14 + 3 * i)) : ℚ) := by
        exact_mod_cast hv
      positivity
    · exact hv

theorem priceWalk_mem (c : PriceCtx) :
    ∀ (idxs : List ℕ) (price : ℚ) (pt : PricePoint), pt ∈ priceWalk c price idxs →
      1 ≤ pt.price ∧ 0 ≤ pt.volume ∧ pt.prev_close = pyRound2 c.prev_close := by
  intro idxs
  induction idxs with
  | nil => intro price pt h; exact absurd h (List.not_mem_nil pt)
  | cons i rest ih =>
    intro price pt h
    rw [priceWalk] at h
    rcases List.mem_cons.mp h with h1 | h2
    · subst h1
      refine ⟨(priceStep_point c i price).1, (priceStep_point c i price).2, ?_⟩
      rfl
    · exact ih _ pt h2

/-- Inversion: a successful `company_price_series` call is a `priceWalk`
over `range (390 / interval_minutes)`. -/
theorem company_price_series_eq_some {mexp msin : ℚ → ℚ} {mpi : ℚ}
    {rng : ℕ → ℚ} {bias : Option String} {interval_minutes : ℕ}
    {l : List PricePoint}
    (h : company_price_series mexp msin mpi rng bias interval_minutes = some l) :
    ∃ c : PriceCtx, c.prev_close = uniform 40 320 (rng 0) ∧
      l = priceWalk c (uniform 40 320 (rng 0) + uniform (-2) 2 (rng 1))
        (List.range (390 / interval_minutes)) := by
  unfold company_price_series at h
  split at h
  · exact absurd h (by simp)
  · split at h
    · exact absurd h (by simp)
    · exact ⟨_, rfl, (Option.some_injective _ h).symm⟩

/-- C2 (counterexample): at `interval_minutes = 390` the computed point
count is `390 // 390 = 1`, so the first loop iteration raises
`ZeroDivisionError` in `progress = i / (points - 1)` instead of returning a
series of length 1. -/
theorem claim2_counterexample :
    company_price_series (fun _ => 0) (fun _ => 0) 0 (fun _ => 0) none 390 = none := by
  rfl

/-- C2 (amended): for every integer `interval_minutes ≥ 1` such that
`floor(390 / interval_minutes) ≠ 1` (i.e. `interval_minutes ∉ [196, 390]`),
`company_price_series` returns without raising, and the returned series has
length exactly `floor(390 / interval_minutes)`.  When the point count is 1
the loop divides by `points - 1 = 0` and raises. -/
theorem claim2_series_length (mexp msin : ℚ → ℚ) (mpi : ℚ) (rng : ℕ → ℚ)
    (bias : Option String) (interval_minutes : ℕ) (h1 : 1 ≤ interval_minutes)
    (h2 : 390 / interval_minutes ≠ 1) :
    ∃ l, company_price_series mexp msin mpi rng bias interval_minutes = some l ∧
      l.length = 390 / interval_minutes := by
  unfold company_price_series
  rw [if_neg (by omega), if_neg h2]
  exact ⟨_, rfl, by rw [priceWalk_length, List.length_range]⟩

/-- C2 (witness): the amended claim instantiated at the default interval of
5 minutes, giving the standard 78-point session. -/
theorem claim2_witness :
    1 ≤ 5 ∧ 390 / 5 ≠ 1 ∧
      ∃ l, company_price_series (fun _ => 0) (fun _ => 0) 0 (fun _ => 0) none 5 = some l ∧
        l.length = 390 / 5 :=
  ⟨by decide, by decide,
    claim2_series_length (fun _ => 0) (fun _ => 0) 0 (fun _ => 0) none 5
      (by decide) (by decide)⟩

/-- C3 (confirmed): every point of a successfully generated intraday series
has `price ≥ 1.0` (the `max(1, ...)` floor survives the 2-decimal rounding)
and an integer `volume ≥ 0` (the volume draw is an integer in a positive
range, and the 1.4× open/close scaling keeps it non-negative). -/
theorem claim3_price_floor_volume_nonneg (mexp msin : ℚ → ℚ) (mpi : ℚ)
    (rng : ℕ → ℚ) (bias : Option String) (interval_minutes : ℕ)
    (pt : PricePoint)
    (h : pt ∈ (company_price_series mexp msin mpi rng bias interval_minutes).getD []) :
    1 ≤ pt.price ∧ 0 ≤ pt.volume := by
  cases hcall : company_price_series mexp msin mpi rng bias interval_minutes with
  | none => rw [hcall] at h; exact absurd h (List.not_mem_nil pt)
  | some l =>
    rw [hcall] at h
    obtain ⟨c, _, hl⟩ := company_price_series_eq_some hcall
    rw [Option.getD_some, hl] at h
    exact ⟨(priceWalk_mem c _ _ pt h).1, (priceWalk_mem c _ _ pt h).2.1⟩

/-- C3 (witness): the invariant instantiated at `interval_minutes = 195`
(a 2-point series) on the constant-zero stream, at the first point. -/
theorem claim3_witness :
    1 ≤ (((company_price_series (fun _ => 0) (fun _ => 0) 0 (fun _ => 0) none 195).getD
        []).headD ⟨0, 1, 0, 0⟩).price ∧
    0 ≤ (((company_price_series (fun _ => 0) (fun _ => 0) 0 (fun _ => 0) none 195).getD
        []).headD ⟨0, 1, 0, 0⟩).volume :=
  claim3_price_floor_volume_nonneg (fun _ => 0) (fun _ => 0) 0 (fun _ => 0) none 195 _
    (by simp [company_price_series, priceWalk, priceStep, List.range_succ])

/-- C8 (confirmed): `prev_close` is identical across every point of one
successfully generated intraday series (it is `round(prev_close, 2)` for
the single draw made before the loop). -/
theorem claim8_prev_close_constant (mexp msin : ℚ → ℚ) (mpi : ℚ)
    (rng : ℕ → ℚ) (bias : Option String) (interval_minutes : ℕ)
    (l : List PricePoint)
    (h : company_price_series mexp msin mpi rng bias interval_minutes = some l)
    (p q : PricePoint) (hp : p ∈ l) (hq : q ∈ l) :
    p.prev_close = q.prev_close := by
  obtain ⟨c, _, hl⟩ := company_price_series_eq_some h
  rw [hl] at hp hq
  rw [(priceWalk_mem c _ _ p hp).2.2, (priceWalk_mem c _ _ q hq).2.2]

/-- C8 (witness): first and last point of the 2-point series generated at
`interval_minutes = 195` on the constant-zero stream carry the same
`prev_close`. -/
theorem claim8_witness :
    (((company_price_series (fun _ => 0) (fun _ => 0) 0 (fun _ => 0) none 195).getD
        []).headD ⟨0, 1, 0, 0⟩).prev_close =
    (((company_price_series (fun _ => 0) (fun _ => 0) 0 (fun _ => 0) none 195).getD
        []).getLastD ⟨0, 1, 0, 0⟩).prev_close :=
  claim8_prev_close_constant (fun _ => 0) (fun _ => 0) 0 (fun _ => 0) none 195
    ((company_price_series (fun _ => 0) (fun _ => 0) 0 (fun _ => 0) none 195).getD [])
    (by simp [company_price_series, priceWalk, priceStep, List.range_succ]) _ _
    (by simp [company_price_series, priceWalk, priceStep, List.range_succ])
    (by simp [company_price_series, priceWalk, priceStep, List.range_succ])

/-! ## Prediction layer (`stock_prediction.StockPredictionModal.generate_prediction_data`) -/

/-- The `Prediction` dataclass. -/
structure Prediction where
  direction : String
  confidence : ℤ
  target_price : ℚ
  timeframe : String
  factors : List String
deriving DecidableEq, Repr

/-- The `StockData` dataclass. -/
structure StockData where
  current_price : ℚ
  change : ℚ
  change_percent : ℚ
  beta : ℚ
  rsi : ℚ
  volatility : ℚ
  volume : ℤ
  market_cap : ℚ
  pe_ratio : ℚ
  fifty_two_week_high : Option ℚ
  fifty_two_week_low : Option ℚ
  correlation : ℚ
  average_volume : Option ℤ
  prediction : Option Prediction
deriving DecidableEq

/-- Embedding of `generate_prediction_data(stock_data)`: builds a `Prediction` whose
direction is `"bullish" if change_percent > 0 else "bearish"`, stores it on
the snapshot and returns the snapshot.  Only `confidence` consumes the
random stream. -/
def generate_prediction_data (rng : ℕ → ℚ) (stock_data : StockData) : StockData :=
  let prediction : Prediction :=
    { direction := if 0 < stock_data.change_percent then "bullish" else "bearish"
      confidence := randint 65 90 (rng 0)
      target_price := stock_data.current_price * (1 + stock_data.change_percent / 100 * 2)
      timeframe := "3 months"
      factors := ["Technical analysis indicators", "Market sentiment analysis",
        "Earnings and financial metrics", "Industry sector performance",
        "Economic and market conditions"] }
  { stock_data with prediction := some prediction }

/-- C4 (confirmed): the predicted direction is `"bullish"` iff
`change_percent > 0` and `"bearish"` otherwise; in particular
`change_percent = 0` gives `"bearish"`, and two calls on the same snapshot
(with arbitrary, possibly different, random streams) agree on the
direction. -/
theorem claim4_direction_sign_rule (stock_data : StockData) (rng rng' : ℕ → ℚ) :
    ((generate_prediction_data rng stock_data).prediction.map Prediction.direction =
        some "bullish" ↔ 0 < stock_data.change_percent) ∧
    ((generate_prediction_data rng stock_data).prediction.map Prediction.direction =
        some "bearish" ↔ ¬ 0 < stock_data.change_percent) ∧
    (stock_data.change_percent = 0 →
      (generate_prediction_data rng stock_data).prediction.map Prediction.direction =
        some "bearish") ∧
    (generate_prediction_data rng stock_data).prediction.map Prediction.direction =
      (generate_prediction_data rng' stock_data).prediction.map Prediction.direction := by
  by_cases h : 0 < stock_data.change_percent
  · have h0 : stock_data.change_percent ≠ 0 := ne_of_gt h
    simp [generate_prediction_data, h, h0]
  · simp [generate_prediction_data, h]

/-! ## Percentage helper (`sentiment_analyzer.SentimentAnalyzer.get_percentage`) -/

/-- Embedding of `get_percentage(count)` with `self.total = total`:
`0 if total == 0 else round(count / total * 100)`. -/
def get_percentage (count total : ℕ) : ℤ :=
  if total = 0 then 0 else roundTE ((count : ℚ) / (total : ℚ) * 100)

/-- C5 (confirmed): the percentage helper returns 0 when the total is 0
(no division is attempted) and `round(count/total*100)` otherwise; in
particular `percentage(0,0) = 0` and `percentage(3,12) = 25`. -/
theorem claim5_percentage_guard (count total : ℕ) :
    get_percentage count 0 = 0 ∧
    (0 < total → get_percentage count total = roundTE ((count : ℚ) / (total : ℚ) * 100)) ∧
    get_percentage 0 0 = 0 ∧
    get_percentage 3 12 = 25 := by
  refine ⟨rfl, fun h => ?_, rfl, ?_⟩
  · unfold get_percentage
    rw [if_neg (by omega)]
  · show get_percentage 3 12 = 25
    norm_num [get_percentage, roundTE]

/-- C5 (witness): the conditional branch instantiated at `count = 3`,
`total = 12`. -/
theorem claim5_witness :
    get_percentage 3 12 = roundTE ((3 : ℚ) / (12 : ℚ) * 100) ∧ get_percentage 3 0 = 0 :=
  ⟨(claim5_percentage_guard 3 12).2.1 (by decide), (claim5_percentage_guard 3 12).1⟩

/-! ## Synthetic articles (`news_data.fake_headlines`) -/

/-- The `COMPANIES` table. -/
def COMPANIES : List (String × String) :=
  [("AAPL", "Apple"), ("MSFT", "Microsoft"), ("AMZN", "Amazon"),
   ("NVDA", "NVIDIA"), ("TSLA", "Tesla"), ("JPM", "JPMorgan"),
   ("NFLX", "Netflix"), ("DIS", "Disney"), ("GOOGL", "Alphabet"),
   ("META", "Meta")]

/-- The `CATEGORIES` table. -/
def CATEGORIES : List String :=
  ["Markets", "Stocks", "Crypto", "Banking", "Commodities", "Technology"]

/-- The `IMPACTS` table. -/
def IMPACTS : List String :=
  ["Earnings", "Macro", "Product", "Regulation", "M&A", "Supply Chain"]

/-- The action phrases of `fake_headlines`. -/
def ACTIONS : List String :=
  ["reports record earnings", "faces regulatory scrutiny", "launches AI division",
   "announces $5B buyback", "warns on guidance", "inks strategic partnership",
   "secures mega government contract", "faces activist investor pressure"]

/-- The news sources of `fake_headlines`. -/
def NEWS_SOURCES : List String := ["MarketWatch", "Reuters", "WSJ", "Bloomberg"]

/-- One article record of `fake_headlines`. -/
structure Article where
  ticker : String
  title : String
  source : String
  timestamp : ℚ
  stance : String
  category : String
  summary : String
  impact : String
deriving DecidableEq, Repr

/-- One iteration of the `fake_headlines` loop; `k` is the stream index of
the iteration's first draw (seven draws per article, in source order:
company, action, stance, timestamp offset, source, category, impact).
`now` models `datetime.utcnow()` in seconds. -/
def mkHeadline (rng : ℕ → ℚ) (now : ℚ) (k : ℕ) : Article :=
  let tc := choice COMPANIES ("AAPL", "Apple") (rng k)
  let action := choice ACTIONS "" (rng (k + 1))
  let stance := choice ["buy", "hold", "sell"] "buy" (rng (k + 2))
  let seconds := randint 5 1800 (rng (k + 3))
  { ticker := tc.1
    title := tc.2 ++ " " ++ action
    source := choice NEWS_SOURCES "" (rng (k + 4))
    timestamp := now - (seconds : ℚ)
    stance := stance
    category := choice CATEGORIES "" (rng (k + 5))
    summary := "Analysts react to " ++ tc.2 ++ "\x27s update with " ++ stance ++ " bias."
    impact := choice IMPACTS "" (rng (k + 6)) }

/-- Embedding of `news_data.fake_headlines(count)` (the spec's
`generate_articles`). -/
def fake_headlines (rng : ℕ → ℚ) (now : ℚ) (count : ℕ := 100) : List Article :=
  (List.range count).map fun j => mkHeadline rng now (7 * j)

/-! ## Sentiment tally (`news_data.sentiment_summary`) -/

/-- The fixed-key counts dict `{"buy": 0, "hold": 0, "sell": 0}`. -/
structure StanceCounts where
  buy : ℕ
  hold : ℕ
  sell : ℕ
deriving DecidableEq, Repr

/-- The update `counts[article["stance"]] += 1`: raises `KeyError`
(modelled `none`)
for any stance outside the three fixed keys. -/
def bumpStance (c : StanceCounts) (s : String) : Option StanceCounts :=
  if s = "buy" then some { c with buy := c.buy + 1 }
  else if s = "hold" then some { c with hold := c.hold + 1 }
  else if s = "sell" then some { c with sell := c.sell + 1 }
  else none

/-- The update `ticker_counts[t] = ticker_counts.get(t, 0) + 1` on an
insertion-ordered
Python dict, modelled as an association list: bump in place, or append a new
key at the end. -/
def bumpTicker : List (String × ℕ) → String → List (String × ℕ)
  | [], t => [(t, 1)]
  | (k, n) :: rest, t =>
    if k = t then (k, n + 1) :: rest else (k, n) :: bumpTicker rest t

/-- The loop of `sentiment_summary` over the batch: threads the stance
counts (fallibly) and the ticker counts. -/
def tallyLoop : StanceCounts → List (String × ℕ) → List Article →
    Option (StanceCounts × List (String × ℕ))
  | c, tc, [] => some (c, tc)
  | c, tc, a :: rest =>
    (bumpStance c a.stance).bind fun c' => tallyLoop c' (bumpTicker tc a.ticker) rest

/-- The relation of `sorted(ticker_counts.items(), key=lambda kv: kv[1],
reverse=True)`: it
sorts descending by count; CPython's sort is stable, so tied entries keep
dict insertion order. -/
def cntGE (a b : String × ℕ) : Prop := b.2 ≤ a.2

instance : DecidableRel cntGE := fun a b => inferInstanceAs (Decidable (b.2 ≤ a.2))

instance : IsTotal (String × ℕ) cntGE := ⟨fun a b => Nat.le_total b.2 a.2⟩

instance : IsTrans (String × ℕ) cntGE := ⟨fun _ _ _ h1 h2 => le_trans h2 h1⟩

/-- The return value of `sentiment_summary`. -/
structure Summary where
  counts : StanceCounts
  top : List (String × ℕ)
deriving DecidableEq, Repr

/-- Embedding of `news_data.sentiment_summary(articles)` (the spec's
`tally_sentiment`). -/
def sentiment_summary (articles : List Article) : Option Summary :=
  (tallyLoop ⟨0, 0, 0⟩ [] articles).map fun r =>
    ⟨r.1, (r.2.insertionSort cntGE).take 5⟩

theorem tallyLoop_counts :
    ∀ (l : List Article) (c : StanceCounts) (tc : List (String × ℕ))
      (c' : StanceCounts) (tc' : List (String × ℕ)),
      tallyLoop c tc l = some (c', tc') →
      c'.buy = c.buy + (l.filter (fun a => a.stance = "buy")).length ∧
      c'.hold = c.hold + (l.filter (fun a => a.stance = "hold")).length ∧
      c'.sell = c.sell + (l.filter (fun a => a.stance = "sell")).length := by
  intro l
  induction l with
  | nil =>
    intro c tc c' tc' h
    simp only [tallyLoop, Option.some.injEq, Prod.mk.injEq] at h
    rw [← h.1]
    simp
  | cons a rest ih =>
    intro c tc c' tc' h
    rw [tallyLoop] at h
    by_cases h1 : a.stance = "buy"
    · rw [show bumpStance c a.stance = some { c with buy := c.buy + 1 } from by
        simp [bumpStance, h1], Option.some_bind] at h
      obtain ⟨hb, hh, hs⟩ := ih _ _ _ _ h
      refine ⟨?_, ?_, ?_⟩ <;> (simp [List.filter_cons, h1, hb, hh, hs]; try omega)
    · by_cases h2 : a.stance = "hold"
      · rw [show bumpStance c a.stance = some { c with hold := c.hold + 1 } from by
          simp [bumpStance, h1, h2], Option.some_bind] at h
        obtain ⟨hb, hh, hs⟩ := ih _ _ _ _ h
        refine ⟨?_, ?_, ?_⟩ <;> (simp [List.filter_cons, h1, h2, hb, hh, hs]; try omega)
      · by_cases h3 : a.stance = "sell"
        · rw [show bumpStance c a.stance = some { c with sell := c.sell + 1 } from by
            simp [bumpStance, h1, h2, h3], Option.some_bind] at h
          obtain ⟨hb, hh, hs⟩ := ih _ _ _ _ h
          refine ⟨?_, ?_, ?_⟩ <;> (simp [List.filter_cons, h1, h2, h3, hb, hh, hs]; try omega)
        · rw [show bumpStance c a.stance = none from by
            simp [bumpStance, h1, h2, h3], Option.none_bind] at h
          exact absurd h (by simp)

/-- C7 (confirmed): when `sentiment_summary` returns, the counts mapping
sends each of the three stance keys to its number of occurrences in the
batch. -/
theorem claim7_stance_counts (articles : List Article) (s : Summary)
    (h : sentiment_summary articles = some s) :
    s.counts.buy = (articles.filter (fun a => a.stance = "buy")).length ∧
    s.counts.hold = (articles.filter (fun a => a.stance = "hold")).length ∧
    s.counts.sell = (articles.filter (fun a => a.stance = "sell")).length := by
  unfold sentiment_summary at h
  rcases ht : tallyLoop ⟨0, 0, 0⟩ [] articles with _ | ⟨c, tc⟩
  · rw [ht] at h; exact absurd h (by simp)
  · rw [ht, Option.map_some'] at h
    have hs : s.counts = c := by
      have := Option.some_injective _ h
      rw [← this]
    obtain ⟨hb, hh, hsl⟩ := tallyLoop_counts articles ⟨0, 0, 0⟩ [] c tc ht
    rw [hs, hb, hh, hsl]
    refine ⟨?_, ?_, ?_⟩ <;> simp

/-- A sample article with only the fields that `sentiment_summary`
inspects populated. -/
def mkSample (ticker stance : String) : Article :=
  ⟨ticker, "", "", 0, stance, "", "", ""⟩

/-- The spec's example batch: stances `[buy, buy, hold, sell]`. -/
def sampleBatch : List Article :=
  [mkSample "AAPL" "buy", mkSample "MSFT" "buy",
   mkSample "AAPL" "hold", mkSample "NVDA" "sell"]

/-- C7 (witness): the spec's example batch with stances
`[buy, buy, hold, sell]` yields counts `{buy: 2, hold: 1, sell: 1}`. -/
theorem claim7_witness :
    sentiment_summary sampleBatch =
      some ⟨⟨2, 1, 1⟩, [("AAPL", 2), ("MSFT", 1), ("NVDA", 1)]⟩ ∧
    (2 : ℕ) = (sampleBatch.filter (fun a => a.stance = "buy")).length ∧
    (1 : ℕ) = (sampleBatch.filter (fun a => a.stance = "hold")).length ∧
    (1 : ℕ) = (sampleBatch.filter (fun a => a.stance = "sell")).length := by
  have h : sentiment_summary sampleBatch =
      some ⟨⟨2, 1, 1⟩, [("AAPL", 2), ("MSFT", 1), ("NVDA", 1)]⟩ := by decide
  have h2 := claim7_stance_counts sampleBatch
    ⟨⟨2, 1, 1⟩, [("AAPL", 2), ("MSFT", 1), ("NVDA", 1)]⟩ h
  exact ⟨h, h2.1, h2.2.1, h2.2.2⟩

/-- The element produced by `random.choice` on a nonempty list is a member
of the list. -/
theorem choice_mem {α : Type*} (l : List α) (d : α) (t : ℚ) (h : l ≠ []) :
    choice l d t ∈ l := by
  unfold choice
  have hlen : 0 < l.length := List.length_pos.mpr h
  have hidx : min (⌊t * l.length⌋.toNat) (l.length - 1) < l.length := by
    have : l.length - 1 < l.length := by omega
    exact lt_of_le_of_lt (min_le_right _ _) this
  rw [List.getD_eq_getElem l d hidx]
  exact List.getElem_mem hidx

theorem tallyLoop_isSome :
    ∀ (l : List Article) (c : StanceCounts) (tc : List (String × ℕ)),
      (∀ a ∈ l, a.stance = "buy" ∨ a.stance = "hold" ∨ a.stance = "sell") →
      ∃ r, tallyLoop c tc l = some r := by
  intro l
  induction l with
  | nil => intro c tc _; exact ⟨(c, tc), rfl⟩
  | cons a rest ih =>
    intro c tc hall
    rw [tallyLoop]
    rcases hall a (List.mem_cons_self a rest) with h1 | h2 | h3
    · rw [show bumpStance c a.stance = some { c with buy := c.buy + 1 } from by
        simp [bumpStance, h1], Option.some_bind]
      exact ih _ _ fun x hx => hall x (List.mem_cons_of_mem a hx)
    · rw [show bumpStance c a.stance = some { c with hold := c.hold + 1 } from by
        simp [bumpStance, h2], Option.some_bind]
      exact ih _ _ fun x hx => hall x (List.mem_cons_of_mem a hx)
    · rw [show bumpStance c a.stance = some { c with sell := c.sell + 1 } from by
        simp [bumpStance, h3], Option.some_bind]
      exact ih _ _ fun x hx => hall x (List.mem_cons_of_mem a hx)

/-- C10 (confirmed): `fake_headlines(count)` returns exactly `count`
articles, every stance is one of `buy`/`hold`/`sell`, and hence
`sentiment_summary` never hits its unguarded stance lookup's `KeyError` on
a batch produced by `fake_headlines`. -/
theorem claim10_generated_articles_safe (rng : ℕ → ℚ) (now : ℚ) (count : ℕ) :
    (fake_headlines rng now count).length = count ∧
    (∀ a ∈ fake_headlines rng now count,
      a.stance = "buy" ∨ a.stance = "hold" ∨ a.stance = "sell") ∧
    ∃ s, sentiment_summary (fake_headlines rng now count) = some s := by
  have hstance : ∀ a ∈ fake_headlines rng now count,
      a.stance = "buy" ∨ a.stance = "hold" ∨ a.stance = "sell" := by
    intro a ha
    obtain ⟨j, _, rfl⟩ := List.mem_map.mp ha
    have hmem : choice ["buy", "hold", "sell"] "buy" (rng (7 * j + 2)) ∈
        ["buy", "hold", "sell"] := choice_mem _ _ _ (by simp)
    simpa [mkHeadline] using hmem
  refine ⟨by simp [fake_headlines], hstance, ?_⟩
  obtain ⟨r, hr⟩ := tallyLoop_isSome (fake_headlines rng now count) ⟨0, 0, 0⟩ [] hstance
  exact ⟨_, by rw [sentiment_summary, hr, Option.map_some']⟩

/-! ## Stability of the top-5 ticker ranking (claim C6) -/

/-- The key list of a Python dict in insertion order: the distinct elements
of `l` ordered by first occurrence. -/
def firstOccList : List String → List String
  | [] => []
  | t :: ts => t :: (firstOccList ts).filter (fun s => decide (s ≠ t))

theorem firstOccList_filter (p : String → Bool) :
    ∀ l : List String, firstOccList (l.filter p) = (firstOccList l).filter p := by
  intro l
  induction l with
  | nil => rfl
  | cons a l' ih =>
    by_cases hp : p a
    · rw [List.filter_cons_of_pos hp, firstOccList, firstOccList, ih,
        List.filter_cons_of_pos hp]
      congr 1
      rw [List.filter_filter, List.filter_filter]
      exact List.filter_congr fun x _ => Bool.and_comm _ _
    · rw [List.filter_cons_of_neg hp, ih, firstOccList,
        List.filter_cons_of_neg hp, List.filter_filter]
      refine (List.filter_congr fun x _ => ?_).symm
      by_cases hxa : x = a
      · subst hxa
        simp [hp]
      · simp [hxa]

theorem firstOccList_sublist : ∀ l : List String, (firstOccList l).Sublist l := by
  intro l
  induction l with
  | nil => exact List.Sublist.refl []
  | cons a l' ih => exact List.Sublist.cons₂ a ((List.filter_sublist _).trans ih)

theorem firstOccList_nodup : ∀ l : List String, (firstOccList l).Nodup := by
  intro l
  induction l with
  | nil => exact List.nodup_nil
  | cons a l' ih =>
    refine List.nodup_cons.mpr ⟨fun hmem => ?_, ih.filter _⟩
    simp [List.mem_filter] at hmem

theorem firstOccList_pairwise :
    ∀ l : List String,
      (firstOccList l).Pairwise (fun x y => List.indexOf x l < List.indexOf y l) := by
  intro l
  induction l with
  | nil => exact List.Pairwise.nil
  | cons a l' ih =>
    rw [firstOccList]
    refine List.pairwise_cons.mpr ⟨?_, ?_⟩
    · intro y hy
      have hya : y ≠ a := by
        have := (List.mem_filter.mp hy).2
        simpa using this
      rw [List.indexOf_cons_self, List.indexOf_cons_ne l' (Ne.symm hya)]
      exact Nat.succ_pos _
    · refine (ih.filter _).imp_of_mem ?_
      intro x y hx hy hxy
      have hxa : x ≠ a := by
        have := (List.mem_filter.mp hx).2
        simpa using this
      have hya : y ≠ a := by
        have := (List.mem_filter.mp hy).2
        simpa using this
      rw [List.indexOf_cons_ne l' (Ne.symm hxa), List.indexOf_cons_ne l' (Ne.symm hya)]
      exact Nat.succ_lt_succ hxy

theorem bumpTicker_keys (t : String) :
    ∀ tc : List (String × ℕ),
      (bumpTicker tc t).map Prod.fst =
        if t ∈ tc.map Prod.fst then tc.map Prod.fst
        else tc.map Prod.fst ++ [t] := by
  intro tc
  induction tc with
  | nil => simp [bumpTicker]
  | cons p rest ih =>
    obtain ⟨k, n⟩ := p
    by_cases hk : k = t
    · subst hk
      simp [bumpTicker]
    · rw [show bumpTicker ((k, n) :: rest) t = (k, n) :: bumpTicker rest t from by
        simp [bumpTicker, hk]]
      by_cases hm : t ∈ rest.map Prod.fst
      · simp [ih, hm, Ne.symm hk]
      · simp [ih, hm, Ne.symm hk]

theorem foldl_bumpTicker_keys :
    ∀ (ts : List String) (tc : List (String × ℕ)),
      (ts.foldl bumpTicker tc).map Prod.fst =
        tc.map Prod.fst ++
          firstOccList (ts.filter (fun s => decide (s ∉ tc.map Prod.fst))) := by
  intro ts
  induction ts with
  | nil => intro tc; simp [firstOccList]
  | cons t ts' ih =>
    intro tc
    rw [List.foldl_cons, ih (bumpTicker tc t), bumpTicker_keys t tc]
    by_cases hm : t ∈ tc.map Prod.fst
    · rw [if_pos hm, List.filter_cons_of_neg (by simpa using hm)]
    · rw [if_neg hm, List.filter_cons_of_pos (by simpa using hm), firstOccList,
        List.append_assoc]
      congr 1
      have hsplit : ts'.filter (fun s => decide (s ∉ tc.map Prod.fst ++ [t])) =
          (ts'.filter (fun s => decide (s ∉ tc.map Prod.fst))).filter
            (fun s => decide (s ≠ t)) := by
        rw [List.filter_filter]
        refine List.filter_congr fun x _ => ?_
        by_cases h1 : x = t
        · subst h1; simp
        · by_cases h2 : x ∈ tc.map Prod.fst <;> simp [h1, h2]
      rw [hsplit, firstOccList_filter, List.singleton_append]

theorem tallyLoop_tickers :
    ∀ (l : List Article) (c : StanceCounts) (tc : List (String × ℕ))
      (c' : StanceCounts) (tc' : List (String × ℕ)),
      tallyLoop c tc l = some (c', tc') →
      tc' = (l.map Article.ticker).foldl bumpTicker tc := by
  intro l
  induction l with
  | nil =>
    intro c tc c' tc' h
    simp only [tallyLoop, Option.some.injEq, Prod.mk.injEq] at h
    rw [← h.2]; rfl
  | cons a rest ih =>
    intro c tc c' tc' h
    rw [tallyLoop] at h
    rcases hb : bumpStance c a.stance with _ | c''
    · rw [hb, Option.none_bind] at h; exact absurd h (by simp)
    · rw [hb, Option.some_bind] at h
      rw [List.map_cons, List.foldl_cons]
      exact ih _ _ _ _ h

theorem pair_sublist_total {α : Type*} {a b : α} :
    ∀ {l : List α}, a ≠ b → a ∈ l → b ∈ l →
      [a, b].Sublist l ∨ [b, a].Sublist l := by
  intro l
  induction l with
  | nil => intro _ ha _; exact absurd ha (List.not_mem_nil a)
  | cons x xs ih =>
    intro hne ha hb
    rcases List.mem_cons.mp ha with rfl | ha'
    · left
      refine List.Sublist.cons₂ _ (List.singleton_sublist.mpr ?_)
      rcases List.mem_cons.mp hb with rfl | hb'
      · exact absurd rfl hne
      · exact hb'
    · rcases List.mem_cons.mp hb with rfl | hb'
      · right
        exact List.Sublist.cons₂ _ (List.singleton_sublist.mpr ha')
      · rcases ih hne ha' hb' with h | h
        · exact Or.inl (h.cons x)
        · exact Or.inr (h.cons x)

theorem pair_sublist_eq_of_nodup {α : Type*} {a b : α} :
    ∀ {l : List α}, l.Nodup → [a, b].Sublist l → [b, a].Sublist l → a = b := by
  intro l
  induction l with
  | nil => intro _ h; exact absurd h (by simp)
  | cons x xs ih =>
    intro hnd h1 h2
    obtain ⟨hx, hxs⟩ := List.nodup_cons.mp hnd
    cases h1 with
    | cons _ h1' =>
      cases h2 with
      | cons _ h2' => exact ih hxs h1' h2'
      | cons₂ h2' => exact absurd (h1'.subset (by simp)) hx
    | cons₂ h1' =>
      cases h2 with
      | cons _ h2' => exact absurd (h2'.subset (by simp)) hx
      | cons₂ h2' => rfl

/-- C6 (confirmed): the top-ticker ranking is sorted by descending mention
count, truncated to at most 5 entries, and stable: whenever two entries tie
on count, the one appearing first in the ranking is the ticker whose first
occurrence in the batch comes earlier. -/
theorem claim6_top_ranking (articles : List Article) (s : Summary)
    (h : sentiment_summary articles = some s) :
    s.top.Pairwise (fun x y => y.2 ≤ x.2) ∧
    s.top.length ≤ 5 ∧
    ∀ a b : String × ℕ, [a, b].Sublist s.top → a.2 = b.2 →
      List.indexOf a.1 (articles.map Article.ticker) <
        List.indexOf b.1 (articles.map Article.ticker) := by
  unfold sentiment_summary at h
  rcases ht : tallyLoop ⟨0, 0, 0⟩ [] articles with _ | ⟨c, tc⟩
  · rw [ht] at h; exact absurd h (by simp)
  · rw [ht, Option.map_some'] at h
    have hstop : s.top = (tc.insertionSort cntGE).take 5 := by
      rw [← (Option.some_injective _ h)]
    have htc : tc = (articles.map Article.ticker).foldl bumpTicker [] :=
      tallyLoop_tickers articles ⟨0, 0, 0⟩ [] c tc ht
    have hkeys : tc.map Prod.fst = firstOccList (articles.map Article.ticker) := by
      rw [htc, foldl_bumpTicker_keys]
      have hfilter : (articles.map Article.ticker).filter
          (fun s => decide (s ∉ ([] : List (String × ℕ)).map Prod.fst)) =
          articles.map Article.ticker :=
        List.filter_eq_self.mpr fun x _ => by simp
      rw [hfilter]
      rfl
    have hnd_tc : tc.Nodup := by
      refine List.Nodup.of_map Prod.fst ?_
      rw [hkeys]
      exact firstOccList_nodup _
    have hpair_tc : tc.Pairwise (fun p q =>
        List.indexOf p.1 (articles.map Article.ticker) <
          List.indexOf q.1 (articles.map Article.ticker)) := by
      have := firstOccList_pairwise (articles.map Article.ticker)
      rw [← hkeys] at this
      exact List.Pairwise.of_map Prod.fst (fun a b h => h) this
    have hperm : List.Perm (tc.insertionSort cntGE) tc := List.perm_insertionSort cntGE tc
    have hnd_sorted : (tc.insertionSort cntGE).Nodup := hperm.symm.nodup hnd_tc
    have hsorted : (tc.insertionSort cntGE).Pairwise cntGE :=
      List.sorted_insertionSort cntGE tc
    refine ⟨?_, ?_, ?_⟩
    · rw [hstop]
      exact (List.Pairwise.sublist (List.take_sublist 5 _) hsorted).imp fun h => h
    · rw [hstop]
      exact List.length_take_le 5 _
    · intro a b hab hcnt
      rw [hstop] at hab
      have hab_sorted : [a, b].Sublist (tc.insertionSort cntGE) :=
        hab.trans (List.take_sublist 5 _)
      have hne : a ≠ b := by
        rintro rfl
        have := hab_sorted.nodup hnd_sorted
        simp at this
      have ha_tc : a ∈ tc := hperm.subset (hab_sorted.subset (by simp))
      have hb_tc : b ∈ tc := hperm.subset (hab_sorted.subset (by simp))
      rcases pair_sublist_total hne ha_tc hb_tc with htc1 | htc2
      · have hpw : List.Pairwise (fun p q : String × ℕ =>
            List.indexOf p.1 (articles.map Article.ticker) <
              List.indexOf q.1 (articles.map Article.ticker)) [a, b] :=
          List.Pairwise.sublist htc1 hpair_tc
        exact (List.pairwise_cons.mp hpw).1 b (List.mem_cons_self b [])
      · exfalso
        have hba : cntGE b a := le_of_eq hcnt
        have hba_sorted : [b, a].Sublist (tc.insertionSort cntGE) :=
          List.pair_sublist_insertionSort hba htc2
        exact hne (pair_sublist_eq_of_nodup hnd_sorted hab_sorted hba_sorted)

/-- A batch with a mention-count tie between AAPL and MSFT, for the C6
witness. -/
def tieBatch : List Article :=
  [mkSample "AAPL" "buy", mkSample "MSFT" "hold", mkSample "AAPL" "sell",
   mkSample "MSFT" "buy", mkSample "NVDA" "buy"]

/-- C6 (witness): on `tieBatch` (tickers AAPL, MSFT, AAPL, MSFT, NVDA) the
ranking is `[AAPL:2, MSFT:2, NVDA:1]` — descending, within the 5-entry cap,
with the AAPL/MSFT tie resolved by first occurrence. -/
theorem claim6_witness :
    sentiment_summary tieBatch =
      some ⟨⟨3, 1, 1⟩, [("AAPL", 2), ("MSFT", 2), ("NVDA", 1)]⟩ ∧
    ([("AAPL", 2), ("MSFT", 2), ("NVDA", 1)] : List (String × ℕ)).Pairwise
      (fun x y => y.2 ≤ x.2) ∧
    ([("AAPL", 2), ("MSFT", 2), ("NVDA", 1)] : List (String × ℕ)).length ≤ 5 ∧
    ∀ a b : String × ℕ,
      [a, b].Sublist [("AAPL", 2), ("MSFT", 2), ("NVDA", 1)] → a.2 = b.2 →
      List.indexOf a.1 (tieBatch.map Article.ticker) <
        List.indexOf b.1 (tieBatch.map Article.ticker) := by
  have h : sentiment_summary tieBatch =
      some ⟨⟨3, 1, 1⟩, [("AAPL", 2), ("MSFT", 2), ("NVDA", 1)]⟩ := by decide
  have h2 := claim6_top_ranking tieBatch
    ⟨⟨3, 1, 1⟩, [("AAPL", 2), ("MSFT", 2), ("NVDA", 1)]⟩ h
  exact ⟨h, h2.1, h2.2.1, h2.2.2⟩

end MarketData

